import Mathlib

/-!
Verification of the in-memory queue service (`src/main.py`).

The store is a list of `Cliente` records.  The single non-trivial routine,
`ordenar_recalcular_posicoes`, stably partitions the store into unserved and
served entries, stably sorts the unserved by the priority key
`0 if tipo == "P" else 1`, renumbers their `posicao` fields 1..K, and rebuilds
the store as (sorted unserved) ++ (served, unchanged).  Each HTTP handler is
embedded as a pure function from the store to (new store, response).
-/

namespace Fila

/-- Service type: `"N"` (Normal) or `"P"` (Prioritário), mirroring
`TipoAtendimento = Literal["N", "P"]`. -/
inductive Tipo where
  | N : Tipo
  | P : Tipo
deriving DecidableEq, Repr

/-- One queue entry, mirroring the pydantic model `Cliente` (fields `posicao`,
`nome`, `chegada`, `tipo`, `atendido`).  `chegada` is an abstract UTC timestamp
(the code only ever stores it).  `uid` is a ghost field modelling Python object
identity — every object created by the handlers is a distinct object — and no
operation of the embedding ever reads it. -/
structure Cliente where
  posicao : Int
  nome : String
  chegada : Nat
  tipo : Tipo
  atendido : Bool
  uid : Nat
deriving DecidableEq, Repr

/-- The Python sort key `lambda c: (0 if c.tipo == "P" else 1)`. -/
def chave (c : Cliente) : Nat := if c.tipo = Tipo.P then 0 else 1

instance decLeChave : DecidableRel (fun a b : Cliente => chave a ≤ chave b) :=
  fun a b => Nat.decLe (chave a) (chave b)

/-- Embedding of `nao_atendidos.sort(key=...)`.  Python's `list.sort` is
specified to be stable, and every stable sort of a list by the same key yields
the same output, so the stable `insertionSort` models it faithfully. -/
def ordena (l : List Cliente) : List Cliente :=
  List.insertionSort (fun a b => chave a ≤ chave b) l

/-- Embeds `for i, c in enumerate(nao_atendidos, start=1): c.posicao = i`. -/
def renumera : List Cliente → Int → List Cliente
  | [], _ => []
  | c :: cs, i => { c with posicao := i } :: renumera cs (i + 1)

/-- Embeds `[c for c in fila if not c.atendido]`. -/
def naoAtendidos (l : List Cliente) : List Cliente := l.filter fun c => !c.atendido

/-- Embeds `[c for c in fila if c.atendido]`. -/
def atendidos (l : List Cliente) : List Cliente := l.filter fun c => c.atendido

/-- The routine `ordenar_recalcular_posicoes()`: partition into unserved/served, stably sort
the unserved by the priority key, renumber them 1..K, and rebuild the store as
`nao_atendidos + atendidos`. -/
def ordenar_recalcular_posicoes (fila : List Cliente) : List Cliente :=
  renumera (ordena (naoAtendidos fila)) 1 ++ atendidos fila

/-- The lookup `encontrar_por_posicao`: first entry whose `posicao` equals the argument. -/
def encontrar_por_posicao (posicao : Int) (fila : List Cliente) : Option Cliente :=
  fila.find? fun c => c.posicao == posicao

/-- The 404 detail string `f"Não existe cliente na posição {id}."`. -/
def msg404 (id : Int) : String := s!"Não existe cliente na posição {id}."

/-- Handler `GET /fila`: recompute, return the unserved entries.  Result is
(new store, response body). -/
def get_fila (fila : List Cliente) : List Cliente × List Cliente :=
  let f := ordenar_recalcular_posicoes fila
  (f, naoAtendidos f)

/-- Handler `GET /fila/{id}`: recompute, look up by position; 404 when the lookup fails
or hits a served entry.  Result is (new store, response). -/
def get_fila_id (id : Int) (fila : List Cliente) : List Cliente × Except String Cliente :=
  let f := ordenar_recalcular_posicoes fila
  match encontrar_por_posicao id f with
  | none => (f, Except.error (msg404 id))
  | some c => if c.atendido then (f, Except.error (msg404 id)) else (f, Except.ok c)

/-- Handler `POST /fila`: build a `Cliente` with placeholder position 999999, current
time, `atendido=False`; append; recompute; return the same object.  Since
Python returns the very object it appended — whose `posicao` the recompute just
mutated in place — the embedding returns the entry of the recomputed store
carrying the new object's identity (`uid`).  The caller supplies `agora` (the
current UTC instant) and the fresh object identity `uid`. -/
def post_fila (nome : String) (tipo : Tipo) (agora : Nat) (uid : Nat)
    (fila : List Cliente) : List Cliente × Cliente :=
  let cliente : Cliente :=
    { posicao := 999999, nome := nome, chegada := agora, tipo := tipo
      atendido := false, uid := uid }
  let f := ordenar_recalcular_posicoes (fila ++ [cliente])
  (f, (f.find? fun c => c.uid == uid).getD cliente)

/-- In-place mutation `primeiro.posicao = 0; primeiro.atendido = True` performed
by `PUT /fila` on the object found by `encontrar_por_posicao(1)`: the first list
element with `posicao == 1`, if any, is overwritten; the list is otherwise
unchanged. -/
def atendePrimeiro : List Cliente → List Cliente
  | [] => []
  | c :: cs =>
    if c.posicao == 1 then { c with posicao := 0, atendido := true } :: cs
    else c :: atendePrimeiro cs

/-- Handler `PUT /fila`: recompute; mark the entry found at position 1 (if any) as
served with sentinel position 0; recompute; return the unserved entries. -/
def put_fila (fila : List Cliente) : List Cliente × List Cliente :=
  let f := ordenar_recalcular_posicoes fila
  let f2 := ordenar_recalcular_posicoes (atendePrimeiro f)
  (f2, naoAtendidos f2)

/-- Pydantic model equality (`__eq__` compares the declared fields; the ghost
`uid` does not exist in Python).  `fila.remove(cliente)` removes the first
element equal to `cliente` under this relation. -/
def pyEq (a b : Cliente) : Bool :=
  a.posicao == b.posicao && a.nome == b.nome && a.chegada == b.chegada &&
    a.tipo == b.tipo && a.atendido == b.atendido

/-- Handler `DELETE /fila/{id}`: recompute, look up by position; 404 when the lookup
fails or hits a served entry; otherwise `fila.remove(cliente)` (first
field-equal element) and recompute.  Result is (new store, response). -/
def delete_fila_id (id : Int) (fila : List Cliente) : List Cliente × Except String Unit :=
  let f := ordenar_recalcular_posicoes fila
  match encontrar_por_posicao id f with
  | none => (f, Except.error (msg404 id))
  | some c =>
    if c.atendido then (f, Except.error (msg404 id))
    else (ordenar_recalcular_posicoes (f.eraseP fun x => pyEq x c), Except.ok ())

/-- The store states reachable through the public handlers from the empty
initial store.  The freshness hypothesis on `post_fila` reflects that every
Python object created is distinct from all existing ones. -/
inductive Reachable : List Cliente → Prop where
  | init : Reachable []
  | lista {l} : Reachable l → Reachable (get_fila l).1
  | detalhe {l} (id : Int) : Reachable l → Reachable (get_fila_id id l).1
  | adiciona {l} (nome : String) (tipo : Tipo) (agora uid : Nat)
      (fresh : ∀ c ∈ l, c.uid ≠ uid) :
      Reachable l → Reachable (post_fila nome tipo agora uid l).1
  | avanca {l} : Reachable l → Reachable (put_fila l).1
  | remove {l} (id : Int) : Reachable l → Reachable (delete_fila_id id l).1

/-! Section: Basic lemmas about `renumera` -/

/-- The list of integers `[i, i+1, ..., i+n-1]`. -/
def intRange (i : Int) : Nat → List Int
  | 0 => []
  | n + 1 => i :: intRange (i + 1) n

theorem renumera_append (a b : List Cliente) (i : Int) :
    renumera (a ++ b) i = renumera a i ++ renumera b (i + a.length) := by
  induction a generalizing i with
  | nil => simp [renumera]
  | cons c cs ih =>
    simp only [List.cons_append, renumera, List.append_eq, ih, List.length_cons]
    have h : i + 1 + (cs.length : Int) = i + ((cs.length + 1 : Nat) : Int) := by
      push_cast
      ring
    rw [h]

theorem renumera_length (l : List Cliente) (i : Int) :
    (renumera l i).length = l.length := by
  induction l generalizing i with
  | nil => rfl
  | cons c cs ih => simp [renumera, ih]

theorem renumera_map_posicao (l : List Cliente) (i : Int) :
    (renumera l i).map Cliente.posicao = intRange i l.length := by
  induction l generalizing i with
  | nil => rfl
  | cons c cs ih => simp [renumera, intRange, ih]

theorem renumera_renumera (l : List Cliente) (i j : Int) :
    renumera (renumera l j) i = renumera l i := by
  induction l generalizing i j with
  | nil => rfl
  | cons c cs ih => simp [renumera, ih]

theorem renumera_map_eq {β : Type} (g : Cliente → β)
    (hg : ∀ (c : Cliente) (p : Int), g { c with posicao := p } = g c)
    (l : List Cliente) (i : Int) :
    (renumera l i).map g = l.map g := by
  induction l generalizing i with
  | nil => rfl
  | cons c cs ih => simp [renumera, ih, hg]

theorem mem_renumera {x : Cliente} {l : List Cliente} {i : Int}
    (h : x ∈ renumera l i) : ∃ c ∈ l, ∃ p, x = { c with posicao := p } := by
  induction l generalizing i with
  | nil => simp [renumera] at h
  | cons c cs ih =>
    simp only [renumera, List.mem_cons] at h
    rcases h with h | h
    · exact ⟨c, List.mem_cons_self c cs, i, h⟩
    · obtain ⟨c', hc', p, hp⟩ := ih h
      exact ⟨c', List.mem_cons_of_mem _ hc', p, hp⟩

/-! Section: The stable sort by the two-valued priority key is the stable partition -/

/-- The Priority entries of a list, in order. -/
def soP (l : List Cliente) : List Cliente := l.filter fun c => c.tipo == Tipo.P

/-- The Normal entries of a list, in order. -/
def soN (l : List Cliente) : List Cliente := l.filter fun c => !(c.tipo == Tipo.P)

theorem tipo_eq_P_or_N (c : Cliente) : c.tipo = Tipo.P ∨ c.tipo = Tipo.N := by
  cases c.tipo <;> simp

theorem chave_P {c : Cliente} (h : c.tipo = Tipo.P) : chave c = 0 := by
  simp [chave, h]

theorem chave_N {c : Cliente} (h : c.tipo = Tipo.N) : chave c = 1 := by
  simp [chave, h]

theorem mem_soP {x : Cliente} {l : List Cliente} : x ∈ soP l ↔ x ∈ l ∧ x.tipo = Tipo.P := by
  simp [soP, List.mem_filter]

theorem mem_soN {x : Cliente} {l : List Cliente} : x ∈ soN l ↔ x ∈ l ∧ x.tipo = Tipo.N := by
  simp only [soN, List.mem_filter, Bool.not_eq_eq_eq_not, Bool.not_true, beq_eq_false_iff_ne,
    ne_eq]
  rcases tipo_eq_P_or_N x with h | h <;> simp [h]

theorem orderedInsert_chave_zero {c : Cliente} (h : chave c = 0) (l : List Cliente) :
    List.orderedInsert (fun a b => chave a ≤ chave b) c l = c :: l := by
  cases l with
  | nil => rfl
  | cons b l =>
    simp only [List.orderedInsert]
    rw [if_pos (by omega : chave c ≤ chave b)]

theorem orderedInsert_append_zero {c : Cliente} (h : chave c = 1) (A B : List Cliente)
    (hA : ∀ a ∈ A, chave a = 0) :
    List.orderedInsert (fun a b => chave a ≤ chave b) c (A ++ B)
      = A ++ List.orderedInsert (fun a b => chave a ≤ chave b) c B := by
  induction A with
  | nil => rfl
  | cons a A ih =>
    have ha : chave a = 0 := hA a (List.mem_cons_self a A)
    simp only [List.cons_append, List.orderedInsert, List.append_eq]
    rw [if_neg (by omega : ¬ chave c ≤ chave a),
      ih fun x hx => hA x (List.mem_cons_of_mem a hx)]

theorem orderedInsert_all_um {c : Cliente} (h : chave c = 1) (B : List Cliente)
    (hB : ∀ b ∈ B, chave b = 1) :
    List.orderedInsert (fun a b => chave a ≤ chave b) c B = c :: B := by
  cases B with
  | nil => rfl
  | cons b B =>
    have hb : chave b = 1 := hB b (List.mem_cons_self b B)
    simp only [List.orderedInsert]
    rw [if_pos (by omega : chave c ≤ chave b)]

/-- A stable sort by the key `0 if tipo == "P" else 1` is exactly the stable
partition: all Priority entries (in order) followed by all Normal entries
(in order). -/
theorem ordena_eq (l : List Cliente) : ordena l = soP l ++ soN l := by
  unfold ordena
  induction l with
  | nil => rfl
  | cons c cs ih =>
    simp only [List.insertionSort]
    rw [ih]
    rcases tipo_eq_P_or_N c with hc | hc
    · rw [orderedInsert_chave_zero (chave_P hc)]
      simp [soP, soN, List.filter_cons, hc]
    · rw [orderedInsert_append_zero (chave_N hc) _ _
        fun a ha => chave_P (mem_soP.mp ha).2]
      rw [orderedInsert_all_um (chave_N hc) _
        fun b hb => chave_N (mem_soN.mp hb).2]
      simp [soP, soN, List.filter_cons, hc]

/-! Section: Structure of the recomputed store -/

theorem perm_ordena (l : List Cliente) : (ordena l).Perm l :=
  List.perm_insertionSort _ l

theorem mem_ordena {x : Cliente} {l : List Cliente} : x ∈ ordena l ↔ x ∈ l :=
  (perm_ordena l).mem_iff

theorem mem_naoAtendidos {x : Cliente} {l : List Cliente} :
    x ∈ naoAtendidos l ↔ x ∈ l ∧ x.atendido = false := by
  simp [naoAtendidos, List.mem_filter]

theorem mem_atendidos {x : Cliente} {l : List Cliente} :
    x ∈ atendidos l ↔ x ∈ l ∧ x.atendido = true := by
  simp [atendidos, List.mem_filter]

theorem atendido_renumera {x : Cliente} {l : List Cliente} {i : Int}
    (hx : x ∈ renumera l i) (h : ∀ c ∈ l, c.atendido = false) : x.atendido = false := by
  obtain ⟨c, hc, p, rfl⟩ := mem_renumera hx
  exact h c hc

/-- The unserved entries of the recomputed store are exactly the renumbered
sorted unserved block. -/
theorem naoAtendidos_recompute (l : List Cliente) :
    naoAtendidos (ordenar_recalcular_posicoes l) = renumera (ordena (naoAtendidos l)) 1 := by
  unfold ordenar_recalcular_posicoes
  show List.filter _ _ = _
  rw [List.filter_append]
  have h1 : (renumera (ordena (naoAtendidos l)) 1).filter (fun c => !c.atendido)
      = renumera (ordena (naoAtendidos l)) 1 := by
    apply List.filter_eq_self.mpr
    intro a ha
    have : a.atendido = false :=
      atendido_renumera ha fun c hc => (mem_naoAtendidos.mp (mem_ordena.mp hc)).2
    simp [this]
  have h2 : (atendidos l).filter (fun c => !c.atendido) = [] := by
    apply List.filter_eq_nil_iff.mpr
    intro a ha
    simp [(mem_atendidos.mp ha).2]
  rw [h1, h2, List.append_nil]

/-- The served entries of the store are untouched by recompute. -/
theorem atendidos_recompute (l : List Cliente) :
    atendidos (ordenar_recalcular_posicoes l) = atendidos l := by
  unfold ordenar_recalcular_posicoes
  show List.filter _ _ = _
  rw [List.filter_append]
  have h1 : (renumera (ordena (naoAtendidos l)) 1).filter (fun c => c.atendido) = [] := by
    apply List.filter_eq_nil_iff.mpr
    intro a ha
    have : a.atendido = false :=
      atendido_renumera ha fun c hc => (mem_naoAtendidos.mp (mem_ordena.mp hc)).2
    simp [this]
  have h2 : (atendidos l).filter (fun c => c.atendido) = atendidos l := by
    apply List.filter_eq_self.mpr
    intro a ha
    exact (mem_atendidos.mp ha).2
  rw [h1, h2, List.nil_append]

/-- After any recompute, the unserved positions are 1, 2, ..., K. -/
theorem posicoes_recompute (l : List Cliente) :
    (naoAtendidos (ordenar_recalcular_posicoes l)).map Cliente.posicao
      = intRange 1 (naoAtendidos (ordenar_recalcular_posicoes l)).length := by
  rw [naoAtendidos_recompute, renumera_map_posicao, renumera_length]

theorem get_fila_fst (l : List Cliente) :
    (get_fila l).1 = ordenar_recalcular_posicoes l := rfl

theorem get_fila_id_fst (id : Int) (l : List Cliente) :
    (get_fila_id id l).1 = ordenar_recalcular_posicoes l := by
  simp only [get_fila_id]
  split
  · rfl
  · split <;> rfl

theorem post_fila_fst (nome : String) (tipo : Tipo) (agora uid : Nat) (l : List Cliente) :
    (post_fila nome tipo agora uid l).1
      = ordenar_recalcular_posicoes
          (l ++ [{ posicao := 999999, nome := nome, chegada := agora, tipo := tipo,
                   atendido := false, uid := uid }]) := rfl

theorem put_fila_fst (l : List Cliente) :
    (put_fila l).1
      = ordenar_recalcular_posicoes (atendePrimeiro (ordenar_recalcular_posicoes l)) := rfl

theorem delete_fila_id_fst (id : Int) (l : List Cliente) :
    ∃ m, (delete_fila_id id l).1 = ordenar_recalcular_posicoes m := by
  simp only [delete_fila_id]
  split
  · exact ⟨l, rfl⟩
  · split
    · exact ⟨l, rfl⟩
    · exact ⟨_, rfl⟩

/-- Every reachable store is the empty store or the image of a recompute. -/
theorem reachable_form {l : List Cliente} (h : Reachable l) :
    l = [] ∨ ∃ m, l = ordenar_recalcular_posicoes m := by
  induction h with
  | init => exact Or.inl rfl
  | lista _ _ => exact Or.inr ⟨_, rfl⟩
  | detalhe id _ _ => exact Or.inr ⟨_, get_fila_id_fst id _⟩
  | adiciona nome tipo agora uid _ _ _ => exact Or.inr ⟨_, rfl⟩
  | avanca _ _ => exact Or.inr ⟨_, rfl⟩
  | remove id h _ => exact Or.inr (delete_fila_id_fst id _)

/-- C1: in every reachable store state the unserved positions are exactly
`1..K`. -/
theorem posicoes_reachable {l : List Cliente} (h : Reachable l) :
    (naoAtendidos l).map Cliente.posicao = intRange 1 (naoAtendidos l).length := by
  rcases reachable_form h with rfl | ⟨m, rfl⟩
  · rfl
  · exact posicoes_recompute m

theorem posicao_mem_renumera {x : Cliente} {l : List Cliente} {i : Int}
    (h : x ∈ renumera l i) : i ≤ x.posicao ∧ x.posicao < i + l.length := by
  induction l generalizing i with
  | nil => cases h
  | cons c cs ih =>
    rcases List.mem_cons.mp h with rfl | h
    · constructor
      · exact le_refl i
      · show i < i + ((cs.length + 1 : Nat) : Int)
        push_cast
        omega
    · have := ih h
      simp only [List.length_cons]
      push_cast at this ⊢
      omega

theorem tipo_renumera {x : Cliente} {l : List Cliente} {i : Int} {t : Tipo}
    (hx : x ∈ renumera l i) (h : ∀ c ∈ l, c.tipo = t) : x.tipo = t := by
  obtain ⟨c, hc, p, rfl⟩ := mem_renumera hx
  exact h c hc

/-- C2 core: in a recomputed store, every unserved Priority entry's position is
strictly below every unserved Normal entry's position. -/
theorem prioridade_antes_normal (l : List Cliente) {x y : Cliente}
    (hx : x ∈ naoAtendidos (ordenar_recalcular_posicoes l))
    (hy : y ∈ naoAtendidos (ordenar_recalcular_posicoes l))
    (hxP : x.tipo = Tipo.P) (hyN : y.tipo = Tipo.N) : x.posicao < y.posicao := by
  rw [naoAtendidos_recompute, ordena_eq, renumera_append] at hx hy
  have hA : ∀ c ∈ soP (naoAtendidos l), c.tipo = Tipo.P := fun c hc => (mem_soP.mp hc).2
  have hB : ∀ c ∈ soN (naoAtendidos l), c.tipo = Tipo.N := fun c hc => (mem_soN.mp hc).2
  have hx' : x ∈ renumera (soP (naoAtendidos l)) 1 := by
    rcases List.mem_append.mp hx with h | h
    · exact h
    · have := tipo_renumera h hB
      rw [hxP] at this
      cases this
  have hy' : y ∈ renumera (soN (naoAtendidos l)) (1 + (soP (naoAtendidos l)).length) := by
    rcases List.mem_append.mp hy with h | h
    · have := tipo_renumera h hA
      rw [hyN] at this
      cases this
    · exact h
  have bx := posicao_mem_renumera hx'
  have by' := posicao_mem_renumera hy'
  omega

theorem soP_append (a b : List Cliente) : soP (a ++ b) = soP a ++ soP b :=
  List.filter_append a b

theorem soN_append (a b : List Cliente) : soN (a ++ b) = soN a ++ soN b :=
  List.filter_append a b

/-- The sorted-and-renumbered unserved block is a fixed point of `ordena`. -/
theorem ordena_renumera_ordena (U : List Cliente) :
    ordena (renumera (ordena U) 1) = renumera (ordena U) 1 := by
  conv_lhs => rw [ordena_eq U]
  conv_rhs => rw [ordena_eq U]
  rw [renumera_append, ordena_eq]
  have hA : ∀ x ∈ renumera (soP U) 1, x.tipo = Tipo.P :=
    fun x hx => tipo_renumera hx fun c hc => (mem_soP.mp hc).2
  have hB : ∀ x ∈ renumera (soN U) (1 + (soP U).length), x.tipo = Tipo.N :=
    fun x hx => tipo_renumera hx fun c hc => (mem_soN.mp hc).2
  have e1 : soP (renumera (soP U) 1) = renumera (soP U) 1 :=
    List.filter_eq_self.mpr fun a ha => by simp [hA a ha]
  have e2 : soP (renumera (soN U) (1 + (soP U).length)) = [] :=
    List.filter_eq_nil_iff.mpr fun a ha => by simp [hB a ha]
  have e3 : soN (renumera (soP U) 1) = [] :=
    List.filter_eq_nil_iff.mpr fun a ha => by simp [hA a ha]
  have e4 : soN (renumera (soN U) (1 + (soP U).length))
      = renumera (soN U) (1 + (soP U).length) :=
    List.filter_eq_self.mpr fun a ha => by simp [hB a ha]
  rw [soP_append, soN_append, e1, e2, e3, e4, List.append_nil, List.nil_append]

theorem recompute_def (m : List Cliente) :
    ordenar_recalcular_posicoes m = renumera (ordena (naoAtendidos m)) 1 ++ atendidos m := rfl

/-- C4 core: recompute is idempotent on every store. -/
theorem recompute_idempotente (l : List Cliente) :
    ordenar_recalcular_posicoes (ordenar_recalcular_posicoes l)
      = ordenar_recalcular_posicoes l := by
  rw [recompute_def (ordenar_recalcular_posicoes l), naoAtendidos_recompute,
    atendidos_recompute, ordena_renumera_ordena, renumera_renumera, ← recompute_def]

/-! Section: Claim theorems C1, C2, C4 -/

/-- C1: for every store state, immediately after recompute — and hence in every
store state reachable through the public handlers — the `posicao` values of the
unserved entries are exactly the contiguous list `[1, ..., K]` (no duplicates,
no gaps), where `K` is the number of unserved entries. -/
theorem posicoes_contiguas :
    (∀ l : List Cliente,
      (naoAtendidos (ordenar_recalcular_posicoes l)).map Cliente.posicao
        = intRange 1 (naoAtendidos (ordenar_recalcular_posicoes l)).length)
    ∧ ∀ l : List Cliente, Reachable l →
      (naoAtendidos l).map Cliente.posicao = intRange 1 (naoAtendidos l).length :=
  ⟨posicoes_recompute, fun _ h => posicoes_reachable h⟩

theorem posicoes_contiguas_witness :
    (naoAtendidos (post_fila "Ana" Tipo.N 5 0 []).1).map Cliente.posicao
      = intRange 1 (naoAtendidos (post_fila "Ana" Tipo.N 5 0 []).1).length :=
  posicoes_contiguas.2 _ (Reachable.adiciona "Ana" Tipo.N 5 0 (by simp) Reachable.init)

/-- C2: after recompute, every unserved Priority (`"P"`) entry has a strictly
smaller position than every unserved Normal (`"N"`) entry; hence the same holds
in every reachable store state. -/
theorem prioridade_precede_normal :
    (∀ (l : List Cliente) (x y : Cliente),
      x ∈ naoAtendidos (ordenar_recalcular_posicoes l) →
      y ∈ naoAtendidos (ordenar_recalcular_posicoes l) →
      x.tipo = Tipo.P → y.tipo = Tipo.N → x.posicao < y.posicao)
    ∧ ∀ (l : List Cliente), Reachable l → ∀ (x y : Cliente),
      x ∈ naoAtendidos l → y ∈ naoAtendidos l →
      x.tipo = Tipo.P → y.tipo = Tipo.N → x.posicao < y.posicao := by
  constructor
  · exact fun l x y hx hy hxP hyN => prioridade_antes_normal l hx hy hxP hyN
  · intro l h x y hx hy hxP hyN
    rcases reachable_form h with rfl | ⟨m, rfl⟩
    · cases hx
    · exact prioridade_antes_normal m hx hy hxP hyN

theorem prioridade_precede_normal_witness :
    ({ posicao := 1, nome := "B", chegada := 1, tipo := Tipo.P,
       atendido := false, uid := 1 } : Cliente).posicao
      < ({ posicao := 2, nome := "A", chegada := 0, tipo := Tipo.N,
           atendido := false, uid := 0 } : Cliente).posicao :=
  prioridade_precede_normal.1
    [{ posicao := 1, nome := "A", chegada := 0, tipo := Tipo.N, atendido := false, uid := 0 },
     { posicao := 999999, nome := "B", chegada := 1, tipo := Tipo.P, atendido := false, uid := 1 }]
    _ _ (by decide) (by decide) (by decide) (by decide)

/-- C4: recompute is idempotent — applying it twice with no intervening
mutation yields exactly the state (entry order and all fields, positions
included) obtained by applying it once. -/
theorem recompute_idempotente_spec :
    ∀ l : List Cliente,
      ordenar_recalcular_posicoes (ordenar_recalcular_posicoes l)
        = ordenar_recalcular_posicoes l :=
  recompute_idempotente

/-! Section: Frame lemmas: which fields each operation can touch -/

/-- Everything but `posicao`. -/
def identidade (c : Cliente) : Nat × String × Nat × Tipo × Bool :=
  (c.uid, c.nome, c.chegada, c.tipo, c.atendido)

/-- Everything but `posicao` and `atendido`. -/
def nucleo (c : Cliente) : Nat × String × Nat × Tipo :=
  (c.uid, c.nome, c.chegada, c.tipo)

theorem naoAtendidos_append_atendidos_perm (l : List Cliente) :
    (naoAtendidos l ++ atendidos l).Perm l := by
  have h := List.filter_append_perm (fun c => !c.atendido) l
  simpa [naoAtendidos, atendidos, Bool.not_not] using h

/-- recompute permutes the store and rewrites only the `posicao` fields: the
multiset of images under any `posicao`-blind projection is untouched. -/
theorem recompute_frame_perm {β : Type} (g : Cliente → β)
    (hg : ∀ (c : Cliente) (p : Int), g { c with posicao := p } = g c) (l : List Cliente) :
    ((ordenar_recalcular_posicoes l).map g).Perm (l.map g) := by
  rw [recompute_def, List.map_append, renumera_map_eq g hg]
  have h1 : ((ordena (naoAtendidos l)).map g ++ (atendidos l).map g).Perm
      ((naoAtendidos l).map g ++ (atendidos l).map g) :=
    ((perm_ordena (naoAtendidos l)).map g).append_right _
  have h3 : ((naoAtendidos l ++ atendidos l).map g).Perm (l.map g) :=
    (naoAtendidos_append_atendidos_perm l).map g
  rw [List.map_append] at h3
  exact h1.trans h3

theorem recompute_identidade_perm (l : List Cliente) :
    ((ordenar_recalcular_posicoes l).map identidade).Perm (l.map identidade) :=
  recompute_frame_perm identidade (fun _ _ => rfl) l

theorem mem_recompute_identidade {x : Cliente} {l : List Cliente}
    (h : x ∈ ordenar_recalcular_posicoes l) : ∃ y ∈ l, identidade x = identidade y := by
  have hx : identidade x ∈ (ordenar_recalcular_posicoes l).map identidade :=
    List.mem_map_of_mem identidade h
  have := (recompute_identidade_perm l).mem_iff.mp hx
  obtain ⟨y, hy, hxy⟩ := List.mem_map.mp this
  exact ⟨y, hy, hxy.symm⟩

theorem atendePrimeiro_map_nucleo (x : List Cliente) :
    (atendePrimeiro x).map nucleo = x.map nucleo := by
  induction x with
  | nil => rfl
  | cons c cs ih =>
    unfold atendePrimeiro
    split
    · rfl
    · simp [ih]

theorem put_fila_nucleo_perm (l : List Cliente) :
    ((put_fila l).1.map nucleo).Perm (l.map nucleo) := by
  rw [put_fila_fst]
  have h1 := recompute_frame_perm nucleo (fun _ _ => rfl)
    (atendePrimeiro (ordenar_recalcular_posicoes l))
  rw [atendePrimeiro_map_nucleo] at h1
  exact h1.trans (recompute_frame_perm nucleo (fun _ _ => rfl) l)

theorem post_fila_identidade_perm (nome : String) (tipo : Tipo) (agora uid : Nat)
    (l : List Cliente) :
    ((post_fila nome tipo agora uid l).1.map identidade).Perm
      ((uid, nome, agora, tipo, false) :: l.map identidade) := by
  rw [post_fila_fst]
  have h1 := recompute_identidade_perm
    (l ++ [{ posicao := 999999, nome := nome, chegada := agora, tipo := tipo,
             atendido := false, uid := uid }])
  rw [List.map_append] at h1
  exact h1.trans (List.perm_append_singleton _ _)

theorem delete_fila_id_identidade {id : Int} {l : List Cliente} {x : Cliente}
    (h : x ∈ (delete_fila_id id l).1) : ∃ y ∈ l, identidade x = identidade y := by
  have step : ∀ m : List Cliente, x ∈ ordenar_recalcular_posicoes m →
      (∀ z ∈ m, z ∈ ordenar_recalcular_posicoes l) → ∃ y ∈ l, identidade x = identidade y := by
    intro m hm hsub
    obtain ⟨z, hz, hxz⟩ := mem_recompute_identidade hm
    obtain ⟨y, hy, hzy⟩ := mem_recompute_identidade (hsub z hz)
    exact ⟨y, hy, hxz.trans hzy⟩
  revert h
  simp only [delete_fila_id]
  split
  · intro h
    exact mem_recompute_identidade h
  · split
    · intro h
      exact mem_recompute_identidade h
    · intro h
      refine step _ h fun z hz => ?_
      exact (List.eraseP_sublist _).mem hz

/-- C9: entry fields other than `posicao`/`atendido` are immutable.  recompute
rewrites only `posicao` (the multiset of all other fields, tagged by object
identity, is preserved); advance rewrites only `posicao` and `atendido`;
enqueue preserves every existing entry's fields and creates exactly the given
entry; delete preserves the fields of every entry it keeps. -/
theorem campos_imutaveis :
    (∀ l : List Cliente,
      ((ordenar_recalcular_posicoes l).map identidade).Perm (l.map identidade))
    ∧ (∀ l : List Cliente, ((put_fila l).1.map nucleo).Perm (l.map nucleo))
    ∧ (∀ (nome : String) (tipo : Tipo) (agora uid : Nat) (l : List Cliente),
        ((post_fila nome tipo agora uid l).1.map identidade).Perm
          ((uid, nome, agora, tipo, false) :: l.map identidade))
    ∧ ∀ (id : Int) (l : List Cliente) (x : Cliente), x ∈ (delete_fila_id id l).1 →
        ∃ y ∈ l, identidade x = identidade y :=
  ⟨recompute_identidade_perm, put_fila_nucleo_perm, post_fila_identidade_perm,
    fun _ _ _ h => delete_fila_id_identidade h⟩

theorem campos_imutaveis_witness :
    ∃ y ∈ [({ posicao := 1, nome := "A", chegada := 0, tipo := Tipo.N,
              atendido := false, uid := 0 } : Cliente)],
      identidade { posicao := 1, nome := "A", chegada := 0, tipo := Tipo.N,
                   atendido := false, uid := 0 } = identidade y :=
  campos_imutaveis.2.2.2 5
    [{ posicao := 1, nome := "A", chegada := 0, tipo := Tipo.N, atendido := false, uid := 0 }]
    _ (by decide)

/-! Section: C3: stability across sequences of enqueues -/

/-- Replay a sequence of `POST /fila` requests (name, type, arrival instant),
numbering the created objects consecutively from `u`. -/
def enqueueFrom : Nat → List (String × Tipo × Nat) → List Cliente → List Cliente
  | _, [], st => st
  | u, (n, t, h) :: rest, st => enqueueFrom (u + 1) rest (post_fila n t h u st).1

/-- The store produced by a sequence of enqueue operations on the empty store;
entry `uid`s record the enqueue order. -/
def fromRequests (reqs : List (String × Tipo × Nat)) : List Cliente :=
  enqueueFrom 0 reqs []

/-- Invariant of enqueue-only stores: all entries unserved, uids below the
counter, positions `1..K` in list order, and within each service type the list
order is the enqueue (uid) order. -/
def EstadoOrdenado (u : Nat) (l : List Cliente) : Prop :=
  (∀ c ∈ l, c.atendido = false) ∧ (∀ c ∈ l, c.uid < u) ∧
    l.map Cliente.posicao = intRange 1 l.length ∧
    l.Pairwise fun a b => a.tipo = b.tipo → a.uid < b.uid

theorem intRange_length (i : Int) (n : Nat) : (intRange i n).length = n := by
  induction n generalizing i with
  | zero => rfl
  | succ n ih => simp [intRange, ih]

theorem intRange_getElem (i : Int) (n k : Nat) (h : k < (intRange i n).length) :
    (intRange i n)[k] = i + k := by
  induction n generalizing i k with
  | zero => simp [intRange] at h
  | succ n ih =>
    cases k with
    | zero => simp [intRange]
    | succ k =>
      have h' : k < (intRange (i + 1) n).length := by
        simpa [intRange] using h
      have := ih (i + 1) k h'
      simp only [intRange, List.getElem_cons_succ, this]
      push_cast
      ring

theorem pairwise_renumera {R : Cliente → Cliente → Prop}
    (hR : ∀ a b (p q : Int), R { a with posicao := p } { b with posicao := q } ↔ R a b)
    {l : List Cliente} {i : Int} (h : l.Pairwise R) : (renumera l i).Pairwise R := by
  induction l generalizing i with
  | nil => exact List.Pairwise.nil
  | cons c cs ih =>
    rcases List.pairwise_cons.mp h with ⟨hc, hcs⟩
    refine List.pairwise_cons.mpr ⟨?_, ih hcs⟩
    intro b hb
    obtain ⟨b', hb', q, rfl⟩ := mem_renumera hb
    exact (hR c b' i q).mpr (hc b' hb')

theorem estado_ordenado_passo {u : Nat} {st : List Cliente}
    (h : EstadoOrdenado u st) (n : String) (t : Tipo) (ag : Nat) :
    EstadoOrdenado (u + 1) (post_fila n t ag u st).1 := by
  obtain ⟨hserv, huid, _hpos, hpw⟩ := h
  set novo : Cliente :=
    { posicao := 999999, nome := n, chegada := ag, tipo := t, atendido := false, uid := u } with hnovo
  have hM : ∀ c ∈ st ++ [novo], c.atendido = false := by
    intro c hc
    rcases List.mem_append.mp hc with hc | hc
    · exact hserv c hc
    · rcases List.mem_singleton.mp hc with rfl
      rfl
  have hMuid : ∀ c ∈ st ++ [novo], c.uid < u + 1 := by
    intro c hc
    rcases List.mem_append.mp hc with hc | hc
    · exact Nat.lt_succ_of_lt (huid c hc)
    · rcases List.mem_singleton.mp hc with rfl
      exact Nat.lt_succ_self u
  have hne : naoAtendidos (st ++ [novo]) = st ++ [novo] := List.filter_eq_self.mpr
    fun a ha => by simp [hM a ha]
  have hat : atendidos (st ++ [novo]) = [] := List.filter_eq_nil_iff.mpr
    fun a ha => by simp [hM a ha]
  have hfst : (post_fila n t ag u st).1 = renumera (ordena (st ++ [novo])) 1 := by
    rw [post_fila_fst, recompute_def, hne, hat, List.append_nil]
  rw [hfst]
  have hmemsort : ∀ x ∈ renumera (ordena (st ++ [novo])) 1, ∃ c ∈ st ++ [novo], ∃ p : Int,
      x = { c with posicao := p } := by
    intro x hx
    obtain ⟨c, hc, p, rfl⟩ := mem_renumera hx
    exact ⟨c, mem_ordena.mp hc, p, rfl⟩
  refine ⟨?_, ?_, ?_, ?_⟩
  · intro c hc
    obtain ⟨c', hc', p, rfl⟩ := hmemsort c hc
    exact hM c' hc'
  · intro c hc
    obtain ⟨c', hc', p, rfl⟩ := hmemsort c hc
    exact hMuid c' hc'
  · rw [renumera_map_posicao, renumera_length]
  · have hpwM : (st ++ [novo]).Pairwise fun a b => a.tipo = b.tipo → a.uid < b.uid := by
      refine List.pairwise_append.mpr ⟨hpw, List.pairwise_singleton _ _, ?_⟩
      intro a ha b hb _
      rcases List.mem_singleton.mp hb with rfl
      exact huid a ha
    have hpwSort : (ordena (st ++ [novo])).Pairwise
        fun a b => a.tipo = b.tipo → a.uid < b.uid := by
      rw [ordena_eq]
      refine List.pairwise_append.mpr ⟨?_, ?_, ?_⟩
      · exact List.Pairwise.sublist (List.filter_sublist _) hpwM
      · exact List.Pairwise.sublist (List.filter_sublist _) hpwM
      · intro a ha b hb hab
        have haP : a.tipo = Tipo.P := (mem_soP.mp ha).2
        have hbN : b.tipo = Tipo.N := (mem_soN.mp hb).2
        rw [haP, hbN] at hab
        cases hab
    exact pairwise_renumera (fun a b p q => by simp) hpwSort

theorem enqueueFrom_inv (reqs : List (String × Tipo × Nat)) :
    ∀ (u : Nat) (st : List Cliente), EstadoOrdenado u st →
      ∃ v, EstadoOrdenado v (enqueueFrom u reqs st) := by
  induction reqs with
  | nil => exact fun u st h => ⟨u, h⟩
  | cons r rest ih =>
    intro u st h
    exact ih (u + 1) _ (estado_ordenado_passo h r.1 r.2.1 r.2.2)

theorem fromRequests_inv (reqs : List (String × Tipo × Nat)) :
    ∃ v, EstadoOrdenado v (fromRequests reqs) :=
  enqueueFrom_inv reqs 0 [] ⟨by simp, by simp, rfl, List.Pairwise.nil⟩

/-- In any store satisfying the enqueue-only invariant, within a service type
the enqueue order (uid order) agrees with the position order. -/
theorem estado_ordenado_estavel {u : Nat} {l : List Cliente} (h : EstadoOrdenado u l)
    {x y : Cliente} (hx : x ∈ l) (hy : y ∈ l) (ht : x.tipo = y.tipo)
    (hu : x.uid < y.uid) : x.posicao < y.posicao := by
  obtain ⟨_, _, hpos, hpw⟩ := h
  obtain ⟨i, hi, rfl⟩ := List.mem_iff_getElem.mp hx
  obtain ⟨j, hj, rfl⟩ := List.mem_iff_getElem.mp hy
  have hposAt : ∀ (k : Nat) (hk : k < l.length), l[k].posicao = 1 + k := by
    intro k hk
    have hk' : k < (l.map Cliente.posicao).length := by simpa using hk
    have hk2 : k < (intRange 1 l.length).length := by
      rw [intRange_length]
      exact hk
    have h1 : (l.map Cliente.posicao)[k] = l[k].posicao := List.getElem_map _
    have h2 : (l.map Cliente.posicao)[k] = (intRange 1 l.length)[k] :=
      List.getElem_of_eq hpos hk'
    rw [← h1, h2, intRange_getElem]
  have hij : i < j := by
    rcases Nat.lt_trichotomy i j with h | h | h
    · exact h
    · subst h
      omega
    · have := (List.pairwise_iff_getElem.mp hpw) j i hj hi h ht.symm
      omega
  rw [hposAt i hi, hposAt j hj]
  omega

/-- C3: after any sequence of enqueue operations (each of which ends with a
recompute), of two unserved entries with the same service type the one enqueued
earlier (smaller creation index `uid`) has the strictly smaller position: the
sort is stable and appends preserve arrival order. -/
theorem estabilidade_fifo :
    ∀ (reqs : List (String × Tipo × Nat)) (x y : Cliente),
      x ∈ fromRequests reqs → y ∈ fromRequests reqs →
      x.tipo = y.tipo → x.uid < y.uid → x.posicao < y.posicao := by
  intro reqs x y hx hy ht hu
  obtain ⟨v, hv⟩ := fromRequests_inv reqs
  exact estado_ordenado_estavel hv hx hy ht hu

theorem estabilidade_fifo_witness :
    ({ posicao := 1, nome := "A", chegada := 0, tipo := Tipo.N,
       atendido := false, uid := 0 } : Cliente).posicao
      < ({ posicao := 2, nome := "B", chegada := 1, tipo := Tipo.N,
           atendido := false, uid := 1 } : Cliente).posicao :=
  estabilidade_fifo [("A", Tipo.N, 0), ("B", Tipo.N, 1)] _ _
    (by decide) (by decide) (by decide) (by decide)

/-! Section: C6 / C10: the NotFound condition and the sentinel invariants -/

/-- The recomputed store is its own unserved block followed by the untouched
served block. -/
theorem recompute_split (l : List Cliente) :
    ordenar_recalcular_posicoes l
      = naoAtendidos (ordenar_recalcular_posicoes l) ++ atendidos l := by
  rw [naoAtendidos_recompute]
  rfl

/-- Every unserved entry of a recomputed store has position at least 1. -/
theorem naoAtendidos_recompute_pos {l : List Cliente} {c : Cliente}
    (hc : c ∈ naoAtendidos (ordenar_recalcular_posicoes l)) : 1 ≤ c.posicao := by
  rw [naoAtendidos_recompute] at hc
  exact (posicao_mem_renumera hc).1

/-- Case analysis for `encontrar_por_posicao` on a recomputed store: either the
lookup yields an unserved entry at the requested position, or no unserved entry
holds the position and any hit is a served entry. -/
theorem encontrar_cases (l : List Cliente) (id : Int) :
    (∃ c, encontrar_por_posicao id (ordenar_recalcular_posicoes l) = some c
        ∧ c.atendido = false ∧ c ∈ naoAtendidos (ordenar_recalcular_posicoes l)
        ∧ c.posicao = id)
    ∨ ((∀ c, encontrar_por_posicao id (ordenar_recalcular_posicoes l) = some c →
          c.atendido = true)
        ∧ ¬ ∃ c ∈ naoAtendidos (ordenar_recalcular_posicoes l), c.posicao = id) := by
  have hsplit := recompute_split l
  cases hU : (naoAtendidos (ordenar_recalcular_posicoes l)).find?
      (fun c => c.posicao == id) with
  | some c =>
    left
    have hcU : c ∈ naoAtendidos (ordenar_recalcular_posicoes l) :=
      List.mem_of_find?_eq_some hU
    have hcid : c.posicao = id := by
      have := List.find?_some hU
      simpa using this
    refine ⟨c, ?_, (mem_naoAtendidos.mp hcU).2, hcU, hcid⟩
    unfold encontrar_por_posicao
    rw [hsplit, List.find?_append, hU]
    rfl
  | none =>
    right
    have hnone : ∀ x ∈ naoAtendidos (ordenar_recalcular_posicoes l),
        ¬ (x.posicao == id) = true := List.find?_eq_none.mp hU
    constructor
    · intro c hc
      unfold encontrar_por_posicao at hc
      rw [hsplit, List.find?_append, hU] at hc
      simp only [Option.or] at hc
      have : c ∈ atendidos l := List.mem_of_find?_eq_some hc
      exact (mem_atendidos.mp this).2
    · rintro ⟨c, hcU, hcid⟩
      exact hnone c hcU (by simp [hcid])

theorem get_fila_id_snd_none {id : Int} {l : List Cliente}
    (hf : encontrar_por_posicao id (ordenar_recalcular_posicoes l) = none) :
    (get_fila_id id l).2 = Except.error (msg404 id) := by
  simp [get_fila_id, hf]

theorem get_fila_id_snd_some {id : Int} {l : List Cliente} {c : Cliente}
    (hf : encontrar_por_posicao id (ordenar_recalcular_posicoes l) = some c) :
    (get_fila_id id l).2
      = if c.atendido then Except.error (msg404 id) else Except.ok c := by
  simp only [get_fila_id, hf]
  split <;> rfl

theorem delete_fila_id_snd_none {id : Int} {l : List Cliente}
    (hf : encontrar_por_posicao id (ordenar_recalcular_posicoes l) = none) :
    (delete_fila_id id l).2 = Except.error (msg404 id) := by
  simp [delete_fila_id, hf]

theorem delete_fila_id_snd_some {id : Int} {l : List Cliente} {c : Cliente}
    (hf : encontrar_por_posicao id (ordenar_recalcular_posicoes l) = some c) :
    (delete_fila_id id l).2
      = if c.atendido then Except.error (msg404 id) else Except.ok () := by
  simp [delete_fila_id, hf]
  split <;> rfl

/-- Handler `GET /fila/{id}` answers 404 exactly when no unserved entry of the
recomputed store holds position `id`. -/
theorem get_erro404_iff (l : List Cliente) (id : Int) :
    (get_fila_id id l).2 = Except.error (msg404 id)
      ↔ ¬ ∃ c ∈ naoAtendidos (ordenar_recalcular_posicoes l), c.posicao = id := by
  rcases encontrar_cases l id with ⟨c, hf, hserv, hmem, hpos⟩ | ⟨hserv, hno⟩
  · rw [get_fila_id_snd_some hf, if_neg (by simp [hserv])]
    simp only [reduceCtorEq, false_iff, not_not]
    exact ⟨c, hmem, hpos⟩
  · cases hf : encontrar_por_posicao id (ordenar_recalcular_posicoes l) with
    | none => simp [get_fila_id_snd_none hf, hno]
    | some c => simp [get_fila_id_snd_some hf, hserv c hf, hno]

/-- Handler `DELETE /fila/{id}` answers 404 exactly when no unserved entry of the
recomputed store holds position `id`. -/
theorem delete_erro404_iff (l : List Cliente) (id : Int) :
    (delete_fila_id id l).2 = Except.error (msg404 id)
      ↔ ¬ ∃ c ∈ naoAtendidos (ordenar_recalcular_posicoes l), c.posicao = id := by
  rcases encontrar_cases l id with ⟨c, hf, hserv, hmem, hpos⟩ | ⟨hserv, hno⟩
  · rw [delete_fila_id_snd_some hf, if_neg (by simp [hserv])]
    simp only [reduceCtorEq, false_iff, not_not]
    exact ⟨c, hmem, hpos⟩
  · cases hf : encontrar_por_posicao id (ordenar_recalcular_posicoes l) with
    | none => simp [delete_fila_id_snd_none hf, hno]
    | some c => simp [delete_fila_id_snd_some hf, hserv c hf, hno]

/-- On success, `GET /fila/{id}` returns an unserved entry of the recomputed
store holding exactly the requested position. -/
theorem get_ok_carac {l : List Cliente} {id : Int} {c : Cliente}
    (h : (get_fila_id id l).2 = Except.ok c) :
    c ∈ naoAtendidos (ordenar_recalcular_posicoes l) ∧ c.posicao = id := by
  rcases encontrar_cases l id with ⟨c', hf, hserv, hmem, hpos⟩ | ⟨hserv, hno⟩
  · rw [get_fila_id_snd_some hf, if_neg (by simp [hserv])] at h
    cases h
    exact ⟨hmem, hpos⟩
  · exfalso
    cases hf : encontrar_por_posicao id (ordenar_recalcular_posicoes l) with
    | none => rw [get_fila_id_snd_none hf] at h; cases h
    | some c' =>
      rw [get_fila_id_snd_some hf, if_pos (by simp [hserv c' hf])] at h
      cases h

/-- Positions of served entries survive a recompute unchanged. -/
theorem atendido_zero_recompute {l : List Cliente}
    (h : ∀ c ∈ l, c.atendido = true → c.posicao = 0) :
    ∀ c ∈ ordenar_recalcular_posicoes l, c.atendido = true → c.posicao = 0 := by
  intro c hc hca
  have hmem : c ∈ atendidos (ordenar_recalcular_posicoes l) := mem_atendidos.mpr ⟨hc, hca⟩
  rw [atendidos_recompute] at hmem
  exact h c (mem_atendidos.mp hmem).1 hca

theorem atendido_zero_atendePrimeiro {l : List Cliente}
    (h : ∀ c ∈ l, c.atendido = true → c.posicao = 0) :
    ∀ c ∈ atendePrimeiro l, c.atendido = true → c.posicao = 0 := by
  induction l with
  | nil => intro c hc; cases hc
  | cons a as ih =>
    intro c hc hca
    unfold atendePrimeiro at hc
    by_cases ha : (a.posicao == 1) = true
    · rw [if_pos ha] at hc
      rcases List.mem_cons.mp hc with rfl | hc
      · rfl
      · exact h c (List.mem_cons_of_mem a hc) hca
    · rw [if_neg ha] at hc
      rcases List.mem_cons.mp hc with rfl | hc
      · exact h _ (List.mem_cons_self _ _) hca
      · exact ih (fun x hx => h x (List.mem_cons_of_mem a hx)) c hc hca

theorem delete_fila_id_fst_cases (id : Int) (l : List Cliente) :
    (delete_fila_id id l).1 = ordenar_recalcular_posicoes l
    ∨ ∃ c, (delete_fila_id id l).1
        = ordenar_recalcular_posicoes
            ((ordenar_recalcular_posicoes l).eraseP fun x => pyEq x c) := by
  simp only [delete_fila_id]
  split
  · exact Or.inl rfl
  · split
    · exact Or.inl rfl
    · exact Or.inr ⟨_, rfl⟩

/-- C10 core invariant: in every reachable store, served entries sit at the
sentinel position 0. -/
theorem atendido_posicao_zero {l : List Cliente} (h : Reachable l) :
    ∀ c ∈ l, c.atendido = true → c.posicao = 0 := by
  induction h with
  | init => intro c hc; cases hc
  | lista _ ih => exact atendido_zero_recompute ih
  | detalhe id _ ih =>
    rw [get_fila_id_fst]
    exact atendido_zero_recompute ih
  | adiciona nome tipo agora uid _ _ ih =>
    rw [post_fila_fst]
    apply atendido_zero_recompute
    intro c hc hca
    rcases List.mem_append.mp hc with hc | hc
    · exact ih c hc hca
    · rcases List.mem_singleton.mp hc with rfl
      cases hca
  | avanca _ ih =>
    rw [put_fila_fst]
    exact atendido_zero_recompute
      (atendido_zero_atendePrimeiro (atendido_zero_recompute ih))
  | remove id h ih =>
    rcases delete_fila_id_fst_cases id _ with he | ⟨c, he⟩
    · rw [he]
      exact atendido_zero_recompute ih
    · rw [he]
      apply atendido_zero_recompute
      intro x hx hxa
      exact atendido_zero_recompute ih x ((List.eraseP_sublist _).mem hx) hxa

/-! Section: Claim theorems C6 and C10 -/

/-- C6: `GET /fila/{id}` and `DELETE /fila/{id}` answer 404 — with detail
message `"Não existe cliente na posição {id}."`, naming the requested
position — exactly when no unserved entry of the recomputed store holds
position `id`; otherwise GET returns the unserved entry at that position. -/
theorem erro404_sse_sem_cliente :
    ∀ (l : List Cliente) (id : Int),
      ((get_fila_id id l).2 = Except.error (msg404 id)
        ↔ ¬ ∃ c ∈ naoAtendidos (ordenar_recalcular_posicoes l), c.posicao = id)
      ∧ ((delete_fila_id id l).2 = Except.error (msg404 id)
        ↔ ¬ ∃ c ∈ naoAtendidos (ordenar_recalcular_posicoes l), c.posicao = id)
      ∧ ∀ c : Cliente, (get_fila_id id l).2 = Except.ok c →
          c ∈ naoAtendidos (ordenar_recalcular_posicoes l) ∧ c.posicao = id :=
  fun l id =>
    ⟨get_erro404_iff l id, delete_erro404_iff l id, fun _ h => get_ok_carac h⟩

theorem erro404_sse_sem_cliente_witness :
    ({ posicao := 1, nome := "A", chegada := 0, tipo := Tipo.N,
       atendido := false, uid := 0 } : Cliente)
        ∈ naoAtendidos (ordenar_recalcular_posicoes
            [{ posicao := 1, nome := "A", chegada := 0, tipo := Tipo.N,
               atendido := false, uid := 0 }])
      ∧ ({ posicao := 1, nome := "A", chegada := 0, tipo := Tipo.N,
           atendido := false, uid := 0 } : Cliente).posicao = 1 :=
  (erro404_sse_sem_cliente
      [{ posicao := 1, nome := "A", chegada := 0, tipo := Tipo.N,
         atendido := false, uid := 0 }] 1).2.2 _ (by rfl)

/-- C10: in every reachable store state, served entries hold the sentinel
position 0 and unserved entries hold positions at least 1; hence a position
lookup for `p ≥ 1` never yields a served entry, and `GET`/`DELETE` with
`id ≤ 0` always answer 404. -/
theorem sentinelas_posicao :
    ∀ l : List Cliente, Reachable l →
      (∀ c ∈ l, c.atendido = true → c.posicao = 0)
      ∧ (∀ c ∈ l, c.atendido = false → 1 ≤ c.posicao)
      ∧ (∀ (p : Int) (c : Cliente), 1 ≤ p →
          encontrar_por_posicao p l = some c → c.atendido = false)
      ∧ ∀ id : Int, id ≤ 0 →
          (get_fila_id id l).2 = Except.error (msg404 id)
          ∧ (delete_fila_id id l).2 = Except.error (msg404 id) := by
  intro l h
  have hzero := atendido_posicao_zero h
  have hpos : ∀ c ∈ l, c.atendido = false → 1 ≤ c.posicao := by
    rcases reachable_form h with rfl | ⟨m, rfl⟩
    · intro c hc
      cases hc
    · intro c hc hcf
      exact naoAtendidos_recompute_pos (mem_naoAtendidos.mpr ⟨hc, hcf⟩)
  refine ⟨hzero, hpos, ?_, ?_⟩
  · intro p c hp hfind
    have hc : c ∈ l := List.mem_of_find?_eq_some hfind
    have hcp : c.posicao = p := by
      have := List.find?_some hfind
      simpa using this
    cases hca : c.atendido with
    | false => rfl
    | true =>
      have := hzero c hc hca
      omega
  · intro id hid
    have hno : ¬ ∃ c ∈ naoAtendidos (ordenar_recalcular_posicoes l), c.posicao = id := by
      rintro ⟨c, hc, hcid⟩
      have := naoAtendidos_recompute_pos hc
      omega
    exact ⟨(get_erro404_iff l id).mpr hno, (delete_erro404_iff l id).mpr hno⟩

theorem sentinelas_posicao_witness :
    (get_fila_id (-3) []).2 = Except.error (msg404 (-3))
      ∧ (delete_fila_id (-3) []).2 = Except.error (msg404 (-3)) :=
  (sentinelas_posicao [] Reachable.init).2.2.2 (-3) (by omega)

/-! Section: C5: enqueue appends, recomputes, and returns the renumbered entry -/

theorem post_fila_snd (nome : String) (tipo : Tipo) (agora uid : Nat) (l : List Cliente) :
    (post_fila nome tipo agora uid l).2
      = ((post_fila nome tipo agora uid l).1.find? fun c => c.uid == uid).getD
          { posicao := 999999, nome := nome, chegada := agora, tipo := tipo,
            atendido := false, uid := uid } := rfl

/-- With a fresh object identity, every entry of the post-enqueue store that
carries the new identity carries exactly the new entry's immutable fields. -/
theorem post_fila_uid_unico {nome : String} {tipo : Tipo} {agora uid : Nat}
    {l : List Cliente} (fresh : ∀ c ∈ l, c.uid ≠ uid) {y : Cliente}
    (hy : y ∈ (post_fila nome tipo agora uid l).1) (hyu : y.uid = uid) :
    identidade y = (uid, nome, agora, tipo, false) := by
  have hmap : identidade y ∈ (post_fila nome tipo agora uid l).1.map identidade :=
    List.mem_map_of_mem identidade hy
  have := (post_fila_identidade_perm nome tipo agora uid l).mem_iff.mp hmap
  rcases List.mem_cons.mp this with he | he
  · exact he
  · exfalso
    obtain ⟨z, hz, hzy⟩ := List.mem_map.mp he
    have : z.uid = y.uid := congrArg (fun t => t.1) hzy
    exact fresh z hz (this.trans hyu)

/-- C5: for every store and valid input, enqueue appends a fresh unserved entry
carrying the given name, service type and current arrival instant, recomputes,
and returns that very entry as it now stands in the store — carrying a genuine
renumbered position `1 ≤ p ≤ K`, not the 999999 placeholder it was created
with. -/
theorem post_devolve_posicao_recalculada :
    ∀ (l : List Cliente) (nome : String) (tipo : Tipo) (agora uid : Nat),
      1 ≤ nome.length → nome.length ≤ 20 → (∀ c ∈ l, c.uid ≠ uid) →
      (post_fila nome tipo agora uid l).1
          = ordenar_recalcular_posicoes
              (l ++ [{ posicao := 999999, nome := nome, chegada := agora,
                       tipo := tipo, atendido := false, uid := uid }])
        ∧ (post_fila nome tipo agora uid l).2
            ∈ naoAtendidos (post_fila nome tipo agora uid l).1
        ∧ (post_fila nome tipo agora uid l).2.nome = nome
        ∧ (post_fila nome tipo agora uid l).2.chegada = agora
        ∧ (post_fila nome tipo agora uid l).2.tipo = tipo
        ∧ (post_fila nome tipo agora uid l).2.atendido = false
        ∧ (post_fila nome tipo agora uid l).2.uid = uid
        ∧ 1 ≤ (post_fila nome tipo agora uid l).2.posicao
        ∧ (post_fila nome tipo agora uid l).2.posicao
            ≤ ((naoAtendidos (post_fila nome tipo agora uid l).1).length : Int) := by
  intro l nome tipo agora uid _ _ fresh
  refine ⟨post_fila_fst nome tipo agora uid l, ?_⟩
  have hexist : ∃ x ∈ (post_fila nome tipo agora uid l).1, x.uid = uid := by
    have hmem : ((uid, nome, agora, tipo, false) : Nat × String × Nat × Tipo × Bool)
        ∈ (post_fila nome tipo agora uid l).1.map identidade :=
      (post_fila_identidade_perm nome tipo agora uid l).mem_iff.mpr
        (List.mem_cons_self _ _)
    obtain ⟨x, hx, hxe⟩ := List.mem_map.mp hmem
    exact ⟨x, hx, congrArg (fun t => t.1) hxe⟩
  cases hf : (post_fila nome tipo agora uid l).1.find? (fun c => c.uid == uid) with
  | none =>
    exfalso
    obtain ⟨x, hx, hxu⟩ := hexist
    exact List.find?_eq_none.mp hf x hx (by simp [hxu])
  | some y =>
    have hy : y ∈ (post_fila nome tipo agora uid l).1 := List.mem_of_find?_eq_some hf
    have hyu : y.uid = uid := by
      have := List.find?_some hf
      simpa using this
    have hid := post_fila_uid_unico fresh hy hyu
    have hcampos : y.nome = nome ∧ y.chegada = agora ∧ y.tipo = tipo
        ∧ y.atendido = false := by
      have h1 : identidade y = (uid, nome, agora, tipo, false) := hid
      unfold identidade at h1
      rcases Prod.mk.injEq .. ▸ h1 with h1
      simp only [Prod.mk.injEq] at h1
      exact ⟨h1.2.1, h1.2.2.1, h1.2.2.2.1, h1.2.2.2.2⟩
    have hsnd : (post_fila nome tipo agora uid l).2 = y := by
      rw [post_fila_snd, hf]
      rfl
    have hyn : y ∈ naoAtendidos (post_fila nome tipo agora uid l).1 :=
      mem_naoAtendidos.mpr ⟨hy, hcampos.2.2.2⟩
    have hbounds : 1 ≤ y.posicao
        ∧ y.posicao ≤ ((naoAtendidos (post_fila nome tipo agora uid l).1).length : Int) := by
      have hyn' := hyn
      rw [post_fila_fst, naoAtendidos_recompute] at hyn'
      have hb := posicao_mem_renumera hyn'
      have hlen : (naoAtendidos (post_fila nome tipo agora uid l).1).length
          = (ordena (naoAtendidos
              (l ++ [{ posicao := 999999, nome := nome, chegada := agora,
                       tipo := tipo, atendido := false, uid := uid }]))).length := by
        rw [post_fila_fst, naoAtendidos_recompute, renumera_length]
      rw [hlen]
      omega
    rw [hsnd]
    exact ⟨hyn, hcampos.1, hcampos.2.1, hcampos.2.2.1, hcampos.2.2.2, hyu,
      hbounds.1, hbounds.2⟩

theorem post_devolve_posicao_recalculada_witness :
    (post_fila "Ana" Tipo.N 7 3 []).1
        = ordenar_recalcular_posicoes
            ([] ++ [{ posicao := 999999, nome := "Ana", chegada := 7,
                      tipo := Tipo.N, atendido := false, uid := 3 }])
      ∧ (post_fila "Ana" Tipo.N 7 3 []).2
          ∈ naoAtendidos (post_fila "Ana" Tipo.N 7 3 []).1
      ∧ (post_fila "Ana" Tipo.N 7 3 []).2.nome = "Ana"
      ∧ (post_fila "Ana" Tipo.N 7 3 []).2.chegada = 7
      ∧ (post_fila "Ana" Tipo.N 7 3 []).2.tipo = Tipo.N
      ∧ (post_fila "Ana" Tipo.N 7 3 []).2.atendido = false
      ∧ (post_fila "Ana" Tipo.N 7 3 []).2.uid = 3
      ∧ 1 ≤ (post_fila "Ana" Tipo.N 7 3 []).2.posicao
      ∧ (post_fila "Ana" Tipo.N 7 3 []).2.posicao
          ≤ ((naoAtendidos (post_fila "Ana" Tipo.N 7 3 []).1).length : Int) :=
  post_devolve_posicao_recalculada [] "Ana" Tipo.N 7 3 (by decide) (by decide)
    (by simp)

/-! Section: C7: advance serves the head of the queue -/

theorem ordena_particionado (A B : List Cliente) (hA : ∀ a ∈ A, a.tipo = Tipo.P)
    (hB : ∀ b ∈ B, b.tipo = Tipo.N) : ordena (A ++ B) = A ++ B := by
  rw [ordena_eq, soP_append, soN_append]
  have e1 : soP A = A := List.filter_eq_self.mpr fun a ha => by simp [hA a ha]
  have e2 : soP B = [] := List.filter_eq_nil_iff.mpr fun b hb => by simp [hB b hb]
  have e3 : soN A = [] := List.filter_eq_nil_iff.mpr fun a ha => by simp [hA a ha]
  have e4 : soN B = B := List.filter_eq_self.mpr fun b hb => by simp [hB b hb]
  rw [e1, e2, e3, e4, List.append_nil, List.nil_append]

theorem ordena_tail_PN (A B : List Cliente) (i j : Int)
    (hA : ∀ a ∈ A, a.tipo = Tipo.P) (hB : ∀ b ∈ B, b.tipo = Tipo.N) :
    ordena ((renumera A i ++ renumera B j).tail) = (renumera A i ++ renumera B j).tail := by
  cases A with
  | nil =>
    simp only [renumera, List.nil_append]
    cases B with
    | nil => rfl
    | cons b bs =>
      simp only [renumera, List.tail_cons]
      have hbs : ∀ x ∈ renumera bs (j + 1), x.tipo = Tipo.N :=
        fun x hx => tipo_renumera hx fun c hc => hB c (List.mem_cons_of_mem b hc)
      have := ordena_particionado [] (renumera bs (j + 1)) (by intro a ha; cases ha) hbs
      simpa using this
  | cons a as =>
    simp only [renumera, List.cons_append, List.tail_cons]
    have has : ∀ x ∈ renumera as (i + 1), x.tipo = Tipo.P :=
      fun x hx => tipo_renumera hx fun c hc => hA c (List.mem_cons_of_mem a hc)
    have hBs : ∀ x ∈ renumera B j, x.tipo = Tipo.N :=
      fun x hx => tipo_renumera hx hB
    exact ordena_particionado _ _ has hBs

/-- The tail of the recomputed unserved block is still sorted. -/
theorem ordena_tail_naoAtendidos (l : List Cliente) :
    ordena ((naoAtendidos (ordenar_recalcular_posicoes l)).tail)
      = (naoAtendidos (ordenar_recalcular_posicoes l)).tail := by
  rw [naoAtendidos_recompute, ordena_eq (naoAtendidos l), renumera_append]
  exact ordena_tail_PN _ _ _ _ (fun a ha => (mem_soP.mp ha).2) (fun b hb => (mem_soN.mp hb).2)

/-- When the unserved block is nonempty, its renumbered head sits at position 1
and is what `encontrar_por_posicao 1` finds. -/
theorem recompute_head {l : List Cliente} {x0 : Cliente} {xs : List Cliente}
    (hOY : ordena (naoAtendidos l) = x0 :: xs) :
    naoAtendidos (ordenar_recalcular_posicoes l)
        = { x0 with posicao := 1 } :: renumera xs (1 + 1)
      ∧ encontrar_por_posicao 1 (ordenar_recalcular_posicoes l)
        = some { x0 with posicao := 1 } := by
  have hU : naoAtendidos (ordenar_recalcular_posicoes l)
      = { x0 with posicao := 1 } :: renumera xs (1 + 1) := by
    rw [naoAtendidos_recompute, hOY]
    rfl
  refine ⟨hU, ?_⟩
  unfold encontrar_por_posicao
  rw [recompute_split l, hU, List.cons_append]
  exact List.find?_cons_of_pos _ (by rfl)

theorem atendePrimeiro_id {x : List Cliente}
    (h : ∀ c ∈ x, ¬((c.posicao == 1) = true)) : atendePrimeiro x = x := by
  induction x with
  | nil => rfl
  | cons a as ih =>
    unfold atendePrimeiro
    rw [if_neg (h a (List.mem_cons_self a as)), ih fun c hc => h c (List.mem_cons_of_mem a hc)]

theorem put_fila_eq (l : List Cliente) :
    put_fila l
      = (ordenar_recalcular_posicoes (atendePrimeiro (ordenar_recalcular_posicoes l)),
         naoAtendidos
           (ordenar_recalcular_posicoes (atendePrimeiro (ordenar_recalcular_posicoes l)))) := rfl

/-- A store with no unserved entry is fixed by recompute. -/
theorem recompute_todos_atendidos {l : List Cliente} (hne : naoAtendidos l = []) :
    ordenar_recalcular_posicoes l = l := by
  have hall : ∀ c ∈ l, c.atendido = true := by
    intro c hc
    have := List.filter_eq_nil_iff.mp hne c hc
    simpa using this
  have hat : atendidos l = l := List.filter_eq_self.mpr hall
  rw [recompute_def, hne, hat]
  rfl

/-- With no unserved entry, `PUT /fila` on a reachable store is a no-op
returning the empty list. -/
theorem put_fila_vazio {l : List Cliente} (h : Reachable l)
    (hne : naoAtendidos l = []) : put_fila l = (l, []) := by
  have hall : ∀ c ∈ l, c.atendido = true := by
    intro c hc
    have := List.filter_eq_nil_iff.mp hne c hc
    simpa using this
  have hrec : ordenar_recalcular_posicoes l = l := recompute_todos_atendidos hne
  have hAPid : atendePrimeiro l = l := by
    apply atendePrimeiro_id
    intro c hc
    have h0 := atendido_posicao_zero h c hc (hall c hc)
    simp [h0]
  rw [put_fila_eq, hrec, hAPid, hrec, hne]

/-- Counterexample to C7 as stated for arbitrary (unreachable) stores: on a
store holding only a served entry parked at position 1, `PUT /fila` has no
unserved entry to serve, yet it still rewrites that served entry's position to
0 — the store is not unchanged. -/
theorem avanca_contraexemplo :
    naoAtendidos [{ posicao := 1, nome := "X", chegada := 0, tipo := Tipo.N,
                    atendido := true, uid := 0 }] = []
      ∧ (put_fila [{ posicao := 1, nome := "X", chegada := 0, tipo := Tipo.N,
                     atendido := true, uid := 0 }]).1
          ≠ [{ posicao := 1, nome := "X", chegada := 0, tipo := Tipo.N,
               atendido := true, uid := 0 }] := by
  constructor
  · rfl
  · decide

/-- C7 (amended to reachable stores): `PUT /fila` on a reachable store with no
unserved entry is a no-op returning the empty list; otherwise position 1 is
occupied by an unserved entry, and exactly that entry is marked served (with
sentinel position 0, appended to the served block unchanged), the remaining
unserved entries are the renumbered tail in their previous order, and the
response is the updated unserved list. -/
theorem avanca_atende_primeiro :
    ∀ l : List Cliente, Reachable l →
      (naoAtendidos l = [] → put_fila l = (l, []))
      ∧ (naoAtendidos l ≠ [] →
          ∃ c, encontrar_por_posicao 1 (ordenar_recalcular_posicoes l) = some c)
      ∧ ∀ c : Cliente, encontrar_por_posicao 1 (ordenar_recalcular_posicoes l) = some c →
          c.atendido = false ∧ c.posicao = 1
            ∧ c ∈ naoAtendidos (ordenar_recalcular_posicoes l)
            ∧ atendidos (put_fila l).1
                = { c with posicao := 0, atendido := true } :: atendidos l
            ∧ naoAtendidos (put_fila l).1
                = renumera ((naoAtendidos (ordenar_recalcular_posicoes l)).tail) 1
            ∧ (put_fila l).2 = naoAtendidos (put_fila l).1 := by
  intro l h
  refine ⟨put_fila_vazio h, ?_, ?_⟩
  · intro hne
    cases hOY : ordena (naoAtendidos l) with
    | nil =>
      exfalso
      have hp := perm_ordena (naoAtendidos l)
      rw [hOY] at hp
      exact hne hp.nil_eq.symm
    | cons x0 xs => exact ⟨_, (recompute_head hOY).2⟩
  · intro c hf
    cases hOY : ordena (naoAtendidos l) with
    | nil =>
      exfalso
      have hp := perm_ordena (naoAtendidos l)
      rw [hOY] at hp
      have hY : naoAtendidos l = [] := hp.nil_eq.symm
      have hall : ∀ x ∈ l, x.atendido = true := by
        intro x hx
        have := List.filter_eq_nil_iff.mp hY x hx
        simpa using this
      rw [recompute_todos_atendidos hY] at hf
      have hc : c ∈ l := List.mem_of_find?_eq_some hf
      have hcp : c.posicao = 1 := by
        have := List.find?_some hf
        simpa using this
      have := atendido_posicao_zero h c hc (hall c hc)
      omega
    | cons x0 xs =>
      obtain ⟨hU2, hfind⟩ := recompute_head hOY
      rw [hf] at hfind
      have hc_eq : c = { x0 with posicao := 1 } := by
        injection hfind
      subst hc_eq
      have hsplit : ordenar_recalcular_posicoes l
          = { x0 with posicao := 1 } :: (renumera xs (1 + 1) ++ atendidos l) := by
        rw [recompute_split l, hU2, List.cons_append]
      have hAP : atendePrimeiro (ordenar_recalcular_posicoes l)
          = { x0 with posicao := 0, atendido := true }
              :: (renumera xs (1 + 1) ++ atendidos l) := by
        rw [hsplit]
        unfold atendePrimeiro
        rw [if_pos (by rfl)]
      have hrest_unserved : ∀ x ∈ renumera xs (1 + 1), x.atendido = false := by
        intro x hx
        obtain ⟨z, hz, p, rfl⟩ := mem_renumera hx
        have hz2 : z ∈ ordena (naoAtendidos l) := by
          rw [hOY]
          exact List.mem_cons_of_mem _ hz
        exact (mem_naoAtendidos.mp (mem_ordena.mp hz2)).2
      have hx0 : x0.atendido = false := by
        have hx0m : x0 ∈ ordena (naoAtendidos l) := by
          rw [hOY]
          exact List.mem_cons_self _ _
        exact (mem_naoAtendidos.mp (mem_ordena.mp hx0m)).2
      have hserv : atendidos (put_fila l).1
          = { x0 with posicao := 0, atendido := true } :: atendidos l := by
        rw [put_fila_fst, atendidos_recompute, hAP]
        show List.filter _ _ = _
        rw [List.filter_cons_of_pos (by rfl), List.filter_append]
        have e1 : (renumera xs (1 + 1)).filter (fun c => c.atendido) = [] :=
          List.filter_eq_nil_iff.mpr fun a ha => by simp [hrest_unserved a ha]
        have e2 : (atendidos l).filter (fun c => c.atendido) = atendidos l :=
          List.filter_eq_self.mpr fun a ha => (mem_atendidos.mp ha).2
        rw [e1, e2, List.nil_append]
      have hnao : naoAtendidos (put_fila l).1
          = renumera ((naoAtendidos (ordenar_recalcular_posicoes l)).tail) 1 := by
        have htail := ordena_tail_naoAtendidos l
        have h2 : (naoAtendidos (ordenar_recalcular_posicoes l)).tail
            = renumera xs (1 + 1) := by
          rw [hU2, List.tail_cons]
        rw [put_fila_fst, naoAtendidos_recompute]
        have h1 : naoAtendidos (atendePrimeiro (ordenar_recalcular_posicoes l))
            = renumera xs (1 + 1) := by
          rw [hAP]
          show List.filter _ _ = _
          rw [List.filter_cons_of_neg (by simp), List.filter_append]
          have e1 : (renumera xs (1 + 1)).filter (fun c => !c.atendido)
              = renumera xs (1 + 1) :=
            List.filter_eq_self.mpr fun a ha => by simp [hrest_unserved a ha]
          have e2 : (atendidos l).filter (fun c => !c.atendido) = [] :=
            List.filter_eq_nil_iff.mpr fun a ha => by simp [(mem_atendidos.mp ha).2]
          rw [e1, e2, List.append_nil]
        rw [h1, h2]
        rw [h2] at htail
        rw [htail]
      refine ⟨hx0, rfl, ?_, hserv, hnao, rfl⟩
      rw [hU2]
      exact List.mem_cons_self _ _

theorem avanca_atende_primeiro_witness : put_fila [] = ([], []) :=
  (avanca_atende_primeiro [] Reachable.init).1 rfl

/-! Section: C8: delete removes exactly the targeted entry -/

theorem delete_fila_id_sucesso {p : Int} {l : List Cliente} {c : Cliente}
    (hf : encontrar_por_posicao p (ordenar_recalcular_posicoes l) = some c)
    (hs : c.atendido = false) :
    delete_fila_id p l
      = (ordenar_recalcular_posicoes
            ((ordenar_recalcular_posicoes l).eraseP fun x => pyEq x c),
         Except.ok ()) := by
  simp [delete_fila_id, hf, hs]

theorem pyEq_refl (c : Cliente) : pyEq c c = true := by
  simp [pyEq]

theorem recompute_uid_perm (l : List Cliente) :
    ((ordenar_recalcular_posicoes l).map Cliente.uid).Perm (l.map Cliente.uid) :=
  recompute_frame_perm Cliente.uid (fun _ _ => rfl) l

/-- C8: if, after recompute, an unserved entry `c` holds position `p`, then
`DELETE /fila/{p}` succeeds (204), removes exactly `c` from the store —
its identity is gone entirely, not merely marked served — while the
identity-tagged fields of every other entry (served ones included) survive,
and the result is again a recomputed store with contiguous unserved
positions. -/
theorem remove_por_posicao :
    ∀ (l : List Cliente) (p : Int) (c : Cliente),
      (l.map Cliente.uid).Nodup →
      encontrar_por_posicao p (ordenar_recalcular_posicoes l) = some c →
      c.atendido = false →
      (delete_fila_id p l).2 = Except.ok ()
        ∧ c.uid ∉ (delete_fila_id p l).1.map Cliente.uid
        ∧ ((delete_fila_id p l).1.map identidade).Perm
            (((ordenar_recalcular_posicoes l).filter fun x => x.uid != c.uid).map
              identidade)
        ∧ (naoAtendidos (delete_fila_id p l).1).map Cliente.posicao
            = intRange 1 (naoAtendidos (delete_fila_id p l).1).length := by
  intro l p c hnd hf hs
  obtain ⟨hpc, as, bs, hdec, has⟩ := List.find?_eq_some.mp hf
  have hcp : c.posicao = p := by simpa using hpc
  have herase : (ordenar_recalcular_posicoes l).eraseP (fun x => pyEq x c)
      = as ++ bs := by
    have hcons : List.eraseP (fun x => pyEq x c) (c :: bs) = bs :=
      List.eraseP_cons_of_pos (pyEq_refl c)
    rw [hdec, List.eraseP_append_right _ ?hskip, hcons]
    case hskip =>
      intro a ha
      have hap : ¬ (a.posicao == p) = true := by simpa using has a ha
      simp only [pyEq, hcp, Bool.and_eq_true, beq_iff_eq]
      rintro ⟨h1, -⟩
      exact hap (by simp [h1])
  have hnodupf : ((ordenar_recalcular_posicoes l).map Cliente.uid).Nodup :=
    (recompute_uid_perm l).nodup_iff.mpr hnd
  have hnodup2 : (c.uid :: (as.map Cliente.uid ++ bs.map Cliente.uid)).Nodup := by
    have : ((as ++ c :: bs).map Cliente.uid).Nodup := by
      rw [← hdec]
      exact hnodupf
    rw [List.map_append, List.map_cons] at this
    rw [← List.nodup_middle]
    exact this
  have hcu_notin : c.uid ∉ as.map Cliente.uid ++ bs.map Cliente.uid :=
    (List.nodup_cons.mp hnodup2).1
  have hfilter : (ordenar_recalcular_posicoes l).filter (fun x => x.uid != c.uid)
      = as ++ bs := by
    rw [hdec, List.filter_append, List.filter_cons_of_neg (by simp)]
    have e1 : as.filter (fun x => x.uid != c.uid) = as :=
      List.filter_eq_self.mpr fun a ha => by
        have : c.uid ∉ as.map Cliente.uid := fun hmem =>
          hcu_notin (List.mem_append.mpr (Or.inl hmem))
        have hau : a.uid ≠ c.uid := by
          intro he
          exact this (he ▸ List.mem_map_of_mem Cliente.uid ha)
        simpa using hau
    have e2 : bs.filter (fun x => x.uid != c.uid) = bs :=
      List.filter_eq_self.mpr fun b hb => by
        have : c.uid ∉ bs.map Cliente.uid := fun hmem =>
          hcu_notin (List.mem_append.mpr (Or.inr hmem))
        have hbu : b.uid ≠ c.uid := by
          intro he
          exact this (he ▸ List.mem_map_of_mem Cliente.uid hb)
        simpa using hbu
    rw [e1, e2]
  rw [delete_fila_id_sucesso hf hs, herase]
  refine ⟨rfl, ?_, ?_, posicoes_recompute _⟩
  · intro hmem
    have hperm := recompute_uid_perm (as ++ bs)
    have : c.uid ∈ (as ++ bs).map Cliente.uid := hperm.mem_iff.mp hmem
    rw [List.map_append] at this
    exact hcu_notin this
  · rw [hfilter]
    exact recompute_identidade_perm (as ++ bs)

theorem remove_por_posicao_witness :
    (delete_fila_id 1
        [{ posicao := 7, nome := "A", chegada := 0, tipo := Tipo.N,
           atendido := false, uid := 0 }]).2 = Except.ok ()
      ∧ (0 : Nat) ∉ (delete_fila_id 1
          [{ posicao := 7, nome := "A", chegada := 0, tipo := Tipo.N,
             atendido := false, uid := 0 }]).1.map Cliente.uid
      ∧ (((delete_fila_id 1
            [{ posicao := 7, nome := "A", chegada := 0, tipo := Tipo.N,
               atendido := false, uid := 0 }]).1.map identidade).Perm
          (((ordenar_recalcular_posicoes
              [{ posicao := 7, nome := "A", chegada := 0, tipo := Tipo.N,
                 atendido := false, uid := 0 }]).filter fun x =>
                  x.uid != ({ posicao := 1, nome := "A", chegada := 0, tipo := Tipo.N,
                              atendido := false, uid := 0 } : Cliente).uid).map identidade))
      ∧ (naoAtendidos (delete_fila_id 1
            [{ posicao := 7, nome := "A", chegada := 0, tipo := Tipo.N,
               atendido := false, uid := 0 }]).1).map Cliente.posicao
          = intRange 1 (naoAtendidos (delete_fila_id 1
              [{ posicao := 7, nome := "A", chegada := 0, tipo := Tipo.N,
                 atendido := false, uid := 0 }]).1).length :=
  remove_por_posicao
    [{ posicao := 7, nome := "A", chegada := 0, tipo := Tipo.N,
       atendido := false, uid := 0 }] 1
    { posicao := 1, nome := "A", chegada := 0, tipo := Tipo.N,
      atendido := false, uid := 0 }
    (by decide) (by decide) (by decide)

end Fila
